import Mathlib

/-!
# Verification of the CudaFFT3D planner against its specification

Shallow embedding of `src/platforms/cuda/src/CudaFFT3D.cpp` (OpenMM CUDA
3D mixed-radix FFT planner).  The host-side planning logic is pure integer
arithmetic and control flow, embedded here as executable Lean functions:

* `findLegalDimension`  — `CudaFFT3D::findLegalDimension` (lines 127-142);
* `getSmallestRadix`    — static `getSmallestRadix` (lines 145-169);
* `stageDecompose`      — the stage-decomposition loop of
  `CudaFFT3D::createKernel` (lines 178-317), returning the per-stage radix
  list and the final remaining length `L`, or `none` when the loop throws
  `OpenMMException("Illegal size for FFT")`;
* `createKernel`        — the planning outputs of `CudaFFT3D::createKernel`
  (thread shape, per-stage radices, output-narrowing flags);
* `choosePacking`       — the packing-axis selection in the constructor
  (lines 40-66);
* `execFFT`             — the kernel-launch sequence of
  `CudaFFT3D::execFFT` (lines 95-125), as a trace of launches.

The C++ `while` loops are embedded with an explicit fuel argument chosen
large enough (proved where needed), so every definition computes by `decide`.
-/

/-- A length is *smooth* when its complete prime factorization uses only the
primes 2, 3, 5 and 7 (the radix set supported by the FFT). -/
def Smooth7 (n : Nat) : Prop := ∃ a b c d : Nat, n = 2 ^ a * 3 ^ b * 5 ^ c * 7 ^ d

/-- Embedding of the inner `while (unfactored > 1 && unfactored%factor == 0)
unfactored /= factor;` loop of `findLegalDimension`.  The first argument is
fuel; `stripFactor` supplies enough of it. -/
def stripFactorAux : Nat → Nat → Nat → Nat
  | 0, _, u => u
  | fuel + 1, f, u =>
    if 1 < u ∧ u % f = 0 then stripFactorAux fuel f (u / f) else u

/-- One trial-division loop of `findLegalDimension`: divide `u` by `f` while
`u > 1` and `f` divides `u`. -/
def stripFactor (f u : Nat) : Nat := stripFactorAux u f u

/-- The `for (int factor = 2; factor < 8; factor++)` loop of
`findLegalDimension`: the value of `unfactored` after trial division by
2, 3, 4, 5, 6, 7 in that order. -/
def factorResidual (n : Nat) : Nat :=
  List.foldl (fun u f => stripFactor f u) n [2, 3, 4, 5, 6, 7]

/-- The acceptance test of `findLegalDimension`: a candidate is kept when the
trial-division residue is exactly 1. -/
def legalCheck (n : Nat) : Bool := factorResidual n == 1

/-- The outer `while (true)` search of `findLegalDimension`, with fuel. -/
def searchFromAux : Nat → Nat → Nat
  | 0, m => m
  | fuel + 1, m => if legalCheck m then m else searchFromAux fuel (m + 1)

/-- Embedding of `CudaFFT3D::findLegalDimension` (lines 127-142): for
`minimum < 1` return 1, otherwise return the first candidate `>= minimum`
that fully factors over 2..7.  The fuel `2 ^ minimum.toNat` is sufficient
because `2 ^ m` is itself legal and `m ≤ 2 ^ m`. -/
def findLegalDimension (minimum : Int) : Int :=
  if minimum < 1 then 1
  else ((searchFromAux (2 ^ minimum.toNat) minimum.toNat : Nat) : Int)

/-- One `while (unfactored%r == 0) { minRadix = r; unfactored /= r; }` loop
of `getSmallestRadix`, on the state `(minRadix, unfactored)`, with fuel. -/
def radixPassAux : Nat → Nat → Nat → Nat → Nat × Nat
  | 0, _, minRadix, u => (minRadix, u)
  | fuel + 1, r, minRadix, u =>
    if u % r = 0 then radixPassAux fuel r r (u / r) else (minRadix, u)

/-- Embedding of the static `getSmallestRadix` (lines 145-169): reduce `size`
by 7, then 5, 4, 3, 2; `minRadix` holds the last radix that divided, i.e. the
smallest radix occurring in the reduction. -/
def getSmallestRadix (size : Nat) : Nat :=
  let s7 := radixPassAux size 7 1 size
  let s5 := radixPassAux size 5 s7.1 s7.2
  let s4 := radixPassAux size 4 s5.1 s5.2
  let s3 := radixPassAux size 3 s4.1 s4.2
  let s2 := radixPassAux size 2 s3.1 s3.2
  s2.1

/-- The radix choice of one stage of `createKernel` (lines 188-199): the
first of 7, 5, 4, 3, 2 dividing the remaining length, or `none` where the
C++ throws `OpenMMException("Illegal size for FFT")`. -/
def pickRadix (L : Nat) : Option Nat :=
  if L % 7 = 0 then some 7
  else if L % 5 = 0 then some 5
  else if L % 4 = 0 then some 4
  else if L % 3 = 0 then some 3
  else if L % 2 = 0 then some 2
  else none

/-- The `while (L > 1)` stage-decomposition loop of `createKernel`
(lines 184-317), with fuel: returns the emitted radices in order together
with the final remaining length, or `none` on the illegal-size throw. -/
def stageLoopAux : Nat → Nat → Option (List Nat × Nat)
  | 0, _ => none
  | fuel + 1, L =>
    if 1 < L then
      match pickRadix L with
      | some radix => (stageLoopAux fuel (L / radix)).map fun p => (radix :: p.1, p.2)
      | none => none
    else
      some ([], L)

/-- Stage decomposition of an axis length, as performed by `createKernel`:
the per-stage radices (priority 7, 5, 4, 3, 2 re-tested at every stage) and
the final remaining length `L`. -/
def stageDecompose (zsize : Nat) : Option (List Nat × Nat) :=
  stageLoopAux (zsize + 1) zsize

/-- The planning outputs of `CudaFFT3D::createKernel` (lines 171-350) that
do not involve kernel-source text: the thread-block shape, the stage radices,
and the input/output layout flags spliced into the generated source. -/
structure KernelInfo where
  threadsPerBlock : Nat
  blocksPerGroup : Nat
  radices : List Nat
  finalL : Nat
  outputIsReal : Bool
  outputIsPacked : Bool
  inputIsRealType : Bool
  inputIsPacked : Bool
  outputColumnLimit : Nat
  threads : Nat
deriving DecidableEq

/-- Embedding of `CudaFFT3D::createKernel`.  `none` models the
`OpenMMException("Illegal size for FFT")` throw.  `threads` is the value
assigned to the reference out-parameter (line 349).  `outputColumnLimit`
reflects the emitted guard: `x < XSIZE/2+1` when the output is
Hermitian-packed (line 325), `index < XSIZE*YSIZE` otherwise (line 327). -/
def createKernel (useDoublePrecision : Bool) (xsize ysize zsize : Nat)
    (axis : Nat) (forward : Bool) (inputIsReal : Bool) : Option KernelInfo :=
  let maxThreads := if useDoublePrecision then 128 else 256
  let threadsPerBlock := zsize / getSmallestRadix zsize
  let blocksPerGroup := max 1 (maxThreads / threadsPerBlock)
  match stageDecompose zsize with
  | none => none
  | some (radices, finalL) =>
    let outputIsReal := inputIsReal && axis == 2 && !forward
    let outputIsPacked := inputIsReal && axis == 2 && forward
    some {
      threadsPerBlock := threadsPerBlock
      blocksPerGroup := blocksPerGroup
      radices := radices
      finalL := finalL
      outputIsReal := outputIsReal
      outputIsPacked := outputIsPacked
      inputIsRealType := inputIsReal && axis == 0 && forward
      inputIsPacked := inputIsReal && axis == 0 && !forward
      outputColumnLimit := if outputIsPacked then xsize / 2 + 1 else xsize
      threads := blocksPerGroup * threadsPerBlock }

/-- The packing decision made in the `CudaFFT3D` constructor (lines 40-66).
`packedAxis` is `none` when the constructor leaves it unset. -/
structure PackDecision where
  packRealAsComplex : Bool
  packedAxis : Option Nat
  packedXSize : Nat
  packedYSize : Nat
  packedZSize : Nat
deriving DecidableEq

/-- Embedding of the constructor logic choosing the packed axis: for a
real-to-complex transform, the first even axis in the order X, Y, Z is
packed and its size halved; otherwise no packing. -/
def choosePacking (xsize ysize zsize : Nat) (realToComplex : Bool) : PackDecision :=
  if realToComplex then
    if xsize % 2 = 0 then ⟨true, some 0, xsize / 2, ysize, zsize⟩
    else if ysize % 2 = 0 then ⟨true, some 1, xsize, ysize / 2, zsize⟩
    else if zsize % 2 = 0 then ⟨true, some 2, xsize, ysize, zsize / 2⟩
    else ⟨false, none, xsize, ysize, zsize⟩
  else ⟨false, none, xsize, ysize, zsize⟩

/-- The device buffers visible to `execFFT`: its `in` and `out` arguments. -/
inductive Buf
  | inputBuffer
  | outputBuffer
deriving DecidableEq

/-- The kernels held by a `CudaFFT3D` plan. -/
inductive KernelName
  | zkernel | xkernel | ykernel
  | invzkernel | invxkernel | invykernel
  | packForward | unpackForward | packBackward | unpackBackward
deriving DecidableEq

/-- One `context.executeKernel(kernel, args, gridSize, blockSize)` call:
`arg0`/`arg1` are the two device-pointer arguments in order (`args1` is
`{&in, &out}`, `args2` is `{&out, &in}`). -/
structure Launch where
  kernel : KernelName
  arg0 : Buf
  arg1 : Buf
  totalElements : Nat
  blockSize : Nat
deriving DecidableEq

/-- The plan state used by `execFFT`: grid sizes, the packing flag, and the
per-axis thread counts produced by `createKernel`. -/
structure FFTPlan where
  xsize : Nat
  ysize : Nat
  zsize : Nat
  packRealAsComplex : Bool
  xthreads : Nat
  ythreads : Nat
  zthreads : Nat
deriving DecidableEq

/-- Embedding of `CudaFFT3D::execFFT` (lines 95-125) as the ordered trace of
kernel launches it issues. -/
def execFFT (p : FFTPlan) (forward : Bool) : List Launch :=
  let kernel1 := if forward then KernelName.zkernel else KernelName.invzkernel
  let kernel2 := if forward then KernelName.xkernel else KernelName.invxkernel
  let kernel3 := if forward then KernelName.ykernel else KernelName.invykernel
  let args1 : Buf × Buf := (Buf.inputBuffer, Buf.outputBuffer)
  let args2 : Buf × Buf := (Buf.outputBuffer, Buf.inputBuffer)
  if p.packRealAsComplex then
    let packKernel := if forward then KernelName.packForward else KernelName.packBackward
    let unpackKernel := if forward then KernelName.unpackForward else KernelName.unpackBackward
    let gridSize := p.xsize * p.ysize * p.zsize / 2
    [⟨packKernel, args1.1, args1.2, gridSize, 128⟩,
     ⟨kernel1, args2.1, args2.2, gridSize, p.zthreads⟩,
     ⟨kernel2, args1.1, args1.2, gridSize, p.xthreads⟩,
     ⟨kernel3, args2.1, args2.2, gridSize, p.ythreads⟩,
     ⟨unpackKernel, args1.1, args1.2, gridSize, 128⟩]
  else
    [⟨kernel1, args1.1, args1.2, p.xsize * p.ysize * p.zsize, p.zthreads⟩,
     ⟨kernel2, args2.1, args2.2, p.xsize * p.ysize * p.zsize, p.xthreads⟩,
     ⟨kernel3, args1.1, args1.2, p.xsize * p.ysize * p.zsize, p.ythreads⟩]

/-! ## Claim C3: `getSmallestRadix` on 28 and 16

The claim (and §8 of the spec) says `getSmallestRadix(28)` returns 7.  In the
source, every `while` loop overwrites `minRadix`, so the *last* loop that
fires wins: 28 is reduced by 7 (setting `minRadix = 7`) and then by 4
(setting `minRadix = 4`), and 4 is returned — which is indeed the smallest
radix present, as the function name and the rest of the claim describe. -/

/-- Counterexample to claim C3 as stated: `getSmallestRadix 28` is 4, not 7. -/
theorem getSmallestRadix_28_counterexample :
    getSmallestRadix 28 = 4 ∧ getSmallestRadix 28 ≠ 7 := by decide

/-- Claim C3 (amended): `getSmallestRadix 28 = 4` and `getSmallestRadix 16 = 4`;
in both cases this is the smallest prime-power radix present when reducing by
priority order 7, 5, 4, 3, 2. -/
theorem getSmallestRadix_values :
    getSmallestRadix 28 = 4 ∧ getSmallestRadix 16 = 4 := by decide

/-! ## Claim C4: packing-axis selection -/

/-- Claim C4: for a real-to-complex construction exactly one even axis is
selected (X first, then Y, then Z; first even axis wins) and its logical size
is halved; if all three sizes are odd, or the transform is not
real-to-complex, no packing occurs.  Concretely, sizes (5,6,7) pack axis Y
(halved to 3) and sizes (5,7,9) pack nothing. -/
theorem choosePacking_spec :
    (∀ x y z : Nat,
      choosePacking x y z false = ⟨false, none, x, y, z⟩ ∧
      (x % 2 = 0 → choosePacking x y z true = ⟨true, some 0, x / 2, y, z⟩) ∧
      (x % 2 = 1 → y % 2 = 0 → choosePacking x y z true = ⟨true, some 1, x, y / 2, z⟩) ∧
      (x % 2 = 1 → y % 2 = 1 → z % 2 = 0 →
        choosePacking x y z true = ⟨true, some 2, x, y, z / 2⟩) ∧
      (x % 2 = 1 → y % 2 = 1 → z % 2 = 1 →
        choosePacking x y z true = ⟨false, none, x, y, z⟩)) ∧
    (choosePacking 5 6 7 true).packedAxis = some 1 ∧
    (choosePacking 5 6 7 true).packedYSize = 3 ∧
    (choosePacking 5 7 9 true).packRealAsComplex = false := by
  refine ⟨fun x y z => ⟨by simp [choosePacking], ?_, ?_, ?_, ?_⟩, by decide, by decide, by decide⟩
  · intro hx; simp [choosePacking, hx]
  · intro hx hy; simp [choosePacking, hx, hy]
  · intro hx hy hz; simp [choosePacking, hx, hy, hz]
  · intro hx hy hz; simp [choosePacking, hx, hy, hz]

/-- Witness for C4: sizes (12, 6, 7), real-to-complex — axis X is even and is
packed, halved to 6. -/
theorem choosePacking_spec_witness :
    choosePacking 12 6 7 true = ⟨true, some 0, 6, 6, 7⟩ :=
  (choosePacking_spec.1 12 6 7).2.1 (by decide)

/-! ## Claim C5: direct-path launch sequence of `execFFT` -/

/-- Claim C5: on a plan without packing, `execFFT` issues exactly three
launches, in order Z, X, Y axis kernels (inverse variants when `forward` is
false), with argument pairs (in, out), (out, in), (in, out) — i.e.
`out = f(in)`, `in = f(out)`, `out = f(in)` — each covering
`xsize*ysize*zsize` elements with that axis's thread count as block size. -/
theorem execFFT_direct_launches (p : FFTPlan) (forward : Bool)
    (h : p.packRealAsComplex = false) :
    execFFT p forward =
      [⟨if forward then KernelName.zkernel else KernelName.invzkernel,
        Buf.inputBuffer, Buf.outputBuffer, p.xsize * p.ysize * p.zsize, p.zthreads⟩,
       ⟨if forward then KernelName.xkernel else KernelName.invxkernel,
        Buf.outputBuffer, Buf.inputBuffer, p.xsize * p.ysize * p.zsize, p.xthreads⟩,
       ⟨if forward then KernelName.ykernel else KernelName.invykernel,
        Buf.inputBuffer, Buf.outputBuffer, p.xsize * p.ysize * p.zsize, p.ythreads⟩] := by
  simp [execFFT, h]

/-- Witness for C5: a concrete non-packed plan, forward direction. -/
theorem execFFT_direct_launches_witness :
    execFFT ⟨5, 7, 9, false, 4, 5, 6⟩ true =
      [⟨KernelName.zkernel, Buf.inputBuffer, Buf.outputBuffer, 315, 6⟩,
       ⟨KernelName.xkernel, Buf.outputBuffer, Buf.inputBuffer, 315, 4⟩,
       ⟨KernelName.ykernel, Buf.inputBuffer, Buf.outputBuffer, 315, 5⟩] :=
  execFFT_direct_launches ⟨5, 7, 9, false, 4, 5, 6⟩ true rfl

/-! ## Claim C6: packed-path launch sequence of `execFFT`

The claim says the three axis kernels use "the same alternation as the direct
path" (out = f(in), in = f(out), out = f(in)).  In the source the packed path
passes `args2 = {&out, &in}` to kernel1, `args1` to kernel2 and `args2` to
kernel3 — the alternation is the *opposite* of the direct path (which uses
args1, args2, args1), and the pack kernel itself launches with
`args1 = {&in, &out}`. -/

/-- Counterexample to claim C6 as stated: on identical grid sizes, the
argument pairs of the three axis-kernel launches of the packed path do not
match those of the direct path. -/
theorem execFFT_packed_alternation_counterexample :
    (((execFFT ⟨5, 6, 7, true, 1, 1, 1⟩ true).drop 1).take 3).map
        (fun l => (l.arg0, l.arg1)) ≠
      (execFFT ⟨5, 6, 7, false, 1, 1, 1⟩ true).map (fun l => (l.arg0, l.arg1)) := by
  decide

/-- Claim C6 (amended): on a plan with packing, `execFFT` issues exactly five
launches: the pack kernel with argument pair (in, out), grid
`xsize*ysize*zsize/2` and block size 128; then the Z, X, Y axis kernels over
the same halved element count with argument pairs (out, in), (in, out),
(out, in) — the alternation *opposite* to the direct path; then the unpack
kernel with argument pair (in, out) and the same grid and block size as the
pack kernel. -/
theorem execFFT_packed_launches (p : FFTPlan) (forward : Bool)
    (h : p.packRealAsComplex = true) :
    execFFT p forward =
      [⟨if forward then KernelName.packForward else KernelName.packBackward,
        Buf.inputBuffer, Buf.outputBuffer, p.xsize * p.ysize * p.zsize / 2, 128⟩,
       ⟨if forward then KernelName.zkernel else KernelName.invzkernel,
        Buf.outputBuffer, Buf.inputBuffer, p.xsize * p.ysize * p.zsize / 2, p.zthreads⟩,
       ⟨if forward then KernelName.xkernel else KernelName.invxkernel,
        Buf.inputBuffer, Buf.outputBuffer, p.xsize * p.ysize * p.zsize / 2, p.xthreads⟩,
       ⟨if forward then KernelName.ykernel else KernelName.invykernel,
        Buf.outputBuffer, Buf.inputBuffer, p.xsize * p.ysize * p.zsize / 2, p.ythreads⟩,
       ⟨if forward then KernelName.unpackForward else KernelName.unpackBackward,
        Buf.inputBuffer, Buf.outputBuffer, p.xsize * p.ysize * p.zsize / 2, 128⟩] := by
  simp [execFFT, h]

/-- Witness for C6 (amended): a concrete packed plan, forward direction;
the grid size is `5*6*7/2 = 105`. -/
theorem execFFT_packed_launches_witness :
    execFFT ⟨5, 6, 7, true, 4, 5, 6⟩ true =
      [⟨KernelName.packForward, Buf.inputBuffer, Buf.outputBuffer, 105, 128⟩,
       ⟨KernelName.zkernel, Buf.outputBuffer, Buf.inputBuffer, 105, 6⟩,
       ⟨KernelName.xkernel, Buf.inputBuffer, Buf.outputBuffer, 105, 4⟩,
       ⟨KernelName.ykernel, Buf.outputBuffer, Buf.inputBuffer, 105, 5⟩,
       ⟨KernelName.unpackForward, Buf.inputBuffer, Buf.outputBuffer, 105, 128⟩] :=
  execFFT_packed_launches ⟨5, 6, 7, true, 4, 5, 6⟩ true rfl

/-! ## Claims C7 and C9: `createKernel` output flags and thread shape

The six axis kernels are created with `axis` 0 (Z), 1 (X), 2 (Y), and
`execFFT` launches them in exactly that order in both directions, so axis
index 0 is the *first* transform axis and axis index 2 the *last*.  The
source sets `outputIsPacked = inputIsReal && axis == 2 && forward`
(line 322) — the Hermitian-packed `size/2+1`-column output is written by the
*last* transform axis of a real-input forward transform, not the first as
claim C7 states. -/

/-- Counterexample to claim C7 as stated: in a real-input forward transform
the kernel of the first transform axis (axis index 0) does not get the
packed `size/2+1`-column output layout, while the kernel of the last
transform axis (axis index 2) does. -/
theorem createKernel_packed_axis_counterexample :
    (createKernel false 4 4 4 0 true true).map KernelInfo.outputIsPacked = some false ∧
    (createKernel false 4 4 4 2 true true).map KernelInfo.outputIsPacked = some true := by
  decide

/-- Claim C7 (amended): the final stage narrows to real-only output exactly
when the axis is the last transform axis (axis index 2) of a real-output
inverse transform, and writes only `xsize/2 + 1` columns exactly when the
axis is the *last* transform axis (axis index 2) of a real-input forward
transform; otherwise full complex samples are written over all `xsize`
columns. -/
theorem createKernel_output_flags (ud : Bool) (xs ys zs axis : Nat) (fwd real : Bool)
    (info : KernelInfo)
    (h : createKernel ud xs ys zs axis fwd real = some info) :
    (info.outputIsReal = true ↔ real = true ∧ axis = 2 ∧ fwd = false) ∧
    (info.outputIsPacked = true ↔ real = true ∧ axis = 2 ∧ fwd = true) ∧
    info.outputColumnLimit = (if info.outputIsPacked then xs / 2 + 1 else xs) := by
  unfold createKernel at h
  rcases hsd : stageDecompose zs with _ | ⟨l, fL⟩ <;> rw [hsd] at h
  · exact absurd h (by simp)
  · simp only [Option.some.injEq] at h
    subst h
    refine ⟨?_, ?_, ?_⟩ <;>
      simp [Bool.and_eq_true, beq_iff_eq, Bool.not_eq_true'] <;>
      cases fwd <;> simp

/-- Witness for C7: the Y-axis kernel (axis index 2) of a real-output
inverse transform narrows to real output and writes all 4 columns. -/
theorem createKernel_output_flags_witness :
    createKernel false 4 4 4 2 false true =
      some ⟨1, 256, [4], 1, true, false, false, false, 4, 256⟩ ∧
    ((⟨1, 256, [4], 1, true, false, false, false, 4, 256⟩ : KernelInfo).outputIsReal = true ↔
      true = true ∧ 2 = 2 ∧ false = false) :=
  ⟨by decide,
   (createKernel_output_flags false 4 4 4 2 false true
      ⟨1, 256, [4], 1, true, false, false, false, 4, 256⟩ (by decide)).1⟩

/-- Claim C9: `createKernel` computes
`threadsPerBlock = zsize / getSmallestRadix zsize`,
`blocksPerGroup = max 1 (deviceMaxThreads / threadsPerBlock)` with
`deviceMaxThreads` 128 in double precision and 256 in single precision, and
reports `blocksPerGroup * threadsPerBlock` as the axis thread count. -/
theorem createKernel_thread_shape (ud : Bool) (xs ys zs axis : Nat) (fwd real : Bool)
    (info : KernelInfo) (hz : 0 < zs)
    (h : createKernel ud xs ys zs axis fwd real = some info) :
    info.threadsPerBlock = zs / getSmallestRadix zs ∧
    info.blocksPerGroup = max 1 ((if ud then 128 else 256) / (zs / getSmallestRadix zs)) ∧
    info.threads = info.blocksPerGroup * info.threadsPerBlock := by
  unfold createKernel at h
  rcases hsd : stageDecompose zs with _ | ⟨l, fL⟩ <;> rw [hsd] at h
  · exact absurd h (by simp)
  · simp only [Option.some.injEq] at h
    subst h
    exact ⟨rfl, rfl, rfl⟩

/-- Witness for C9: the Z-axis kernel for length 28 in double precision —
`getSmallestRadix 28 = 4`, so 7 threads per block, 18 blocks per group,
126 threads reported. -/
theorem createKernel_thread_shape_witness :
    createKernel true 4 4 28 0 true false =
      some ⟨7, 18, [7, 4], 1, false, false, false, false, 4, 126⟩ ∧
    (⟨7, 18, [7, 4], 1, false, false, false, false, 4, 126⟩ : KernelInfo).threads =
      (⟨7, 18, [7, 4], 1, false, false, false, false, 4, 126⟩ : KernelInfo).blocksPerGroup *
      (⟨7, 18, [7, 4], 1, false, false, false, false, 4, 126⟩ : KernelInfo).threadsPerBlock :=
  ⟨by decide,
   (createKernel_thread_shape true 4 4 28 0 true false
      ⟨7, 18, [7, 4], 1, false, false, false, false, 4, 126⟩ (by decide) (by decide)).2.2⟩

/-! ## Arithmetic toolkit for the stage-decomposition proofs -/

/-- A number at least 2 that is coprime to `w` does not divide `w`. -/
theorem not_dvd_of_coprime {r w : Nat} (hr : 2 ≤ r) (h : Nat.Coprime r w) : ¬r ∣ w :=
  fun hd => by have := h.eq_one_of_dvd hd; omega

/-- Coprimality with every base prime extends to the full smooth product. -/
theorem coprime_smooth_product {r : Nat} (h2 : Nat.Coprime r 2) (h3 : Nat.Coprime r 3)
    (h5 : Nat.Coprime r 5) (h7 : Nat.Coprime r 7) (a b c d : Nat) :
    Nat.Coprime r (2 ^ a * 3 ^ b * 5 ^ c * 7 ^ d) :=
  (((h2.pow_right a).mul_right (h3.pow_right b)).mul_right
    (h5.pow_right c)).mul_right (h7.pow_right d)

/-- The product of two smooth numbers is smooth. -/
theorem Smooth7.mul {x y : Nat} : Smooth7 x → Smooth7 y → Smooth7 (x * y) := by
  rintro ⟨a, b, c, d, rfl⟩ ⟨e, f, g, h, rfl⟩
  exact ⟨a + e, b + f, c + g, d + h, by ring⟩

theorem mod_eq_zero_of_dvd {d n : Nat} (h : d ∣ n) : n % d = 0 := by
  obtain ⟨k, rfl⟩ := h
  exact Nat.mul_mod_right d k

theorem mod_ne_zero_of_not_dvd {d n : Nat} (h : ¬d ∣ n) : n % d ≠ 0 :=
  fun hm => h (Nat.dvd_of_mod_eq_zero hm)

/-! Evaluation lemmas for `pickRadix` under divisibility hypotheses. -/

theorem pickRadix_eq_seven {L : Nat} (h : 7 ∣ L) : pickRadix L = some 7 := by
  unfold pickRadix; rw [if_pos (mod_eq_zero_of_dvd h)]

theorem pickRadix_eq_five {L : Nat} (h7 : ¬7 ∣ L) (h : 5 ∣ L) : pickRadix L = some 5 := by
  unfold pickRadix
  rw [if_neg (mod_ne_zero_of_not_dvd h7), if_pos (mod_eq_zero_of_dvd h)]

theorem pickRadix_eq_four {L : Nat} (h7 : ¬7 ∣ L) (h5 : ¬5 ∣ L) (h : 4 ∣ L) :
    pickRadix L = some 4 := by
  unfold pickRadix
  rw [if_neg (mod_ne_zero_of_not_dvd h7), if_neg (mod_ne_zero_of_not_dvd h5),
    if_pos (mod_eq_zero_of_dvd h)]

theorem pickRadix_eq_three {L : Nat} (h7 : ¬7 ∣ L) (h5 : ¬5 ∣ L) (h4 : ¬4 ∣ L)
    (h : 3 ∣ L) : pickRadix L = some 3 := by
  unfold pickRadix
  rw [if_neg (mod_ne_zero_of_not_dvd h7), if_neg (mod_ne_zero_of_not_dvd h5),
    if_neg (mod_ne_zero_of_not_dvd h4), if_pos (mod_eq_zero_of_dvd h)]

theorem pickRadix_eq_two {L : Nat} (h7 : ¬7 ∣ L) (h5 : ¬5 ∣ L) (h4 : ¬4 ∣ L)
    (h3 : ¬3 ∣ L) (h : 2 ∣ L) : pickRadix L = some 2 := by
  unfold pickRadix
  rw [if_neg (mod_ne_zero_of_not_dvd h7), if_neg (mod_ne_zero_of_not_dvd h5),
    if_neg (mod_ne_zero_of_not_dvd h4), if_neg (mod_ne_zero_of_not_dvd h3),
    if_pos (mod_eq_zero_of_dvd h)]

/-- Any radix produced by `pickRadix` is at least 2 and divides the length. -/
theorem pickRadix_spec {L r : Nat} (h : pickRadix L = some r) : 2 ≤ r ∧ r ∣ L := by
  unfold pickRadix at h
  split_ifs at h with h7 h5 h4 h3 h2 <;> injection h with h <;> subst h
  · exact ⟨by omega, Nat.dvd_of_mod_eq_zero h7⟩
  · exact ⟨by omega, Nat.dvd_of_mod_eq_zero h5⟩
  · exact ⟨by omega, Nat.dvd_of_mod_eq_zero h4⟩
  · exact ⟨by omega, Nat.dvd_of_mod_eq_zero h3⟩
  · exact ⟨by omega, Nat.dvd_of_mod_eq_zero h2⟩

/-- Every radix choosable by `pickRadix` is itself smooth. -/
theorem smooth_of_pickRadix {L r : Nat} (h : pickRadix L = some r) : Smooth7 r := by
  unfold pickRadix at h
  split_ifs at h <;> injection h with h <;> subst h
  · exact ⟨0, 0, 0, 1, by norm_num⟩
  · exact ⟨0, 0, 1, 0, by norm_num⟩
  · exact ⟨2, 0, 0, 0, by norm_num⟩
  · exact ⟨0, 1, 0, 0, by norm_num⟩
  · exact ⟨1, 0, 0, 0, by norm_num⟩

/-- The stage loop is fuel-independent once the fuel exceeds the length. -/
theorem stageLoopAux_stable :
    ∀ f1 f2 L, L < f1 → L < f2 → stageLoopAux f1 L = stageLoopAux f2 L := by
  intro f1
  induction f1 with
  | zero => intro f2 L h1 h2; omega
  | succ f1 ih =>
    intro f2 L h1 h2
    match f2, h2 with
    | f2 + 1, h2 =>
      simp only [stageLoopAux]
      by_cases hL : 1 < L
      · rw [if_pos hL, if_pos hL]
        cases hp : pickRadix L with
        | none => rfl
        | some r =>
          obtain ⟨hr2, _⟩ := pickRadix_spec hp
          have hlt : L / r < L := Nat.div_lt_self (by omega) (by omega)
          simp only [ih f2 (L / r) (by omega) (by omega)]
      · rw [if_neg hL, if_neg hL]

/-- One-step unfolding of `stageDecompose`, mirroring one iteration of the
`while (L > 1)` loop of `createKernel`. -/
theorem stageDecompose_unfold (Z : Nat) :
    stageDecompose Z =
      (if 1 < Z then
        match pickRadix Z with
        | some r => (stageDecompose (Z / r)).map fun p => (r :: p.1, p.2)
        | none => none
      else some ([], Z)) := by
  show stageLoopAux (Z + 1) Z = _
  simp only [stageLoopAux]
  by_cases hZ : 1 < Z
  · rw [if_pos hZ, if_pos hZ]
    cases hp : pickRadix Z with
    | none => rfl
    | some r =>
      obtain ⟨hr2, _⟩ := pickRadix_spec hp
      have hlt : Z / r < Z := Nat.div_lt_self (by omega) (by omega)
      have hst := stageLoopAux_stable Z (Z / r + 1) (Z / r) (by omega) (by omega)
      simp only [stageDecompose, hst]
  · rw [if_neg hZ, if_neg hZ]

/-- `q` coprime to `p` and not dividing `w` does not divide `p ^ k * w`. -/
theorem not_dvd_mul_pow {q p w : Nat} (hqp : Nat.Coprime q p) (hw : ¬q ∣ w) (k : Nat) :
    ¬q ∣ p ^ k * w :=
  fun h => hw ((hqp.pow_right k).dvd_of_dvd_mul_left h)

/-- `q ≠ 1` coprime to `p` does not divide `p ^ k`. -/
theorem not_dvd_pow_of_coprime {q p : Nat} (hqp : Nat.Coprime q p) (hq1 : q ≠ 1) (k : Nat) :
    ¬q ∣ p ^ k :=
  fun h => hq1 ((hqp.pow_right k).eq_one_of_dvd h)

/-- Stage decomposition of `2 ^ e` for `e ≤ 1` (the 2-power remainder after
all radix-4 stages). -/
theorem stageDecompose_two_pow {e : Nat} (he : e ≤ 1) :
    stageDecompose (2 ^ e) = some (List.replicate e 2, 1) := by
  rcases (by omega : e = 0 ∨ e = 1) with h | h <;> subst h <;> decide

/-- Prepending `b` radix-3 stages: if no higher-priority radix divides `w`,
the decomposition of `3 ^ b * w` is `b` threes followed by that of `w`. -/
theorem stageDecompose_pow3_mul {w : Nat} (hw : 0 < w) (h7 : ¬7 ∣ w) (h5 : ¬5 ∣ w)
    (h4 : ¬4 ∣ w) {l : List Nat} {fL : Nat} (hS : stageDecompose w = some (l, fL)) :
    ∀ b, stageDecompose (3 ^ b * w) = some (List.replicate b 3 ++ l, fL) := by
  intro b
  induction b with
  | zero => simpa using hS
  | succ b ih =>
    have hp1 : (3 : Nat) ≤ 3 ^ (b + 1) := Nat.le_self_pow (by omega) 3
    have hle : 3 ^ (b + 1) ≤ 3 ^ (b + 1) * w := Nat.le_mul_of_pos_right _ hw
    have hgt : 1 < 3 ^ (b + 1) * w := by omega
    have hd3 : 3 ∣ 3 ^ (b + 1) * w := ⟨3 ^ b * w, by ring⟩
    have hn7 : ¬7 ∣ 3 ^ (b + 1) * w := not_dvd_mul_pow (by decide) h7 (b + 1)
    have hn5 : ¬5 ∣ 3 ^ (b + 1) * w := not_dvd_mul_pow (by decide) h5 (b + 1)
    have hn4 : ¬4 ∣ 3 ^ (b + 1) * w := not_dvd_mul_pow (by decide) h4 (b + 1)
    have hdiv : 3 ^ (b + 1) * w / 3 = 3 ^ b * w := by
      rw [show 3 ^ (b + 1) * w = 3 * (3 ^ b * w) by ring]
      exact Nat.mul_div_cancel_left _ (by omega)
    rw [stageDecompose_unfold, if_pos hgt, pickRadix_eq_three hn7 hn5 hn4 hd3]
    show (stageDecompose (3 ^ (b + 1) * w / 3)).map (fun p => (3 :: p.1, p.2)) = _
    rw [hdiv, ih]
    simp [List.replicate_succ]

/-- Prepending `k` radix-4 stages. -/
theorem stageDecompose_pow4_mul {w : Nat} (hw : 0 < w) (h7 : ¬7 ∣ w) (h5 : ¬5 ∣ w)
    {l : List Nat} {fL : Nat} (hS : stageDecompose w = some (l, fL)) :
    ∀ k, stageDecompose (4 ^ k * w) = some (List.replicate k 4 ++ l, fL) := by
  intro k
  induction k with
  | zero => simpa using hS
  | succ k ih =>
    have hp1 : (4 : Nat) ≤ 4 ^ (k + 1) := Nat.le_self_pow (by omega) 4
    have hle : 4 ^ (k + 1) ≤ 4 ^ (k + 1) * w := Nat.le_mul_of_pos_right _ hw
    have hgt : 1 < 4 ^ (k + 1) * w := by omega
    have hd4 : 4 ∣ 4 ^ (k + 1) * w := ⟨4 ^ k * w, by ring⟩
    have hn7 : ¬7 ∣ 4 ^ (k + 1) * w := not_dvd_mul_pow (by decide) h7 (k + 1)
    have hn5 : ¬5 ∣ 4 ^ (k + 1) * w := not_dvd_mul_pow (by decide) h5 (k + 1)
    have hdiv : 4 ^ (k + 1) * w / 4 = 4 ^ k * w := by
      rw [show 4 ^ (k + 1) * w = 4 * (4 ^ k * w) by ring]
      exact Nat.mul_div_cancel_left _ (by omega)
    rw [stageDecompose_unfold, if_pos hgt, pickRadix_eq_four hn7 hn5 hd4]
    show (stageDecompose (4 ^ (k + 1) * w / 4)).map (fun p => (4 :: p.1, p.2)) = _
    rw [hdiv, ih]
    simp [List.replicate_succ]

/-- Prepending `c` radix-5 stages. -/
theorem stageDecompose_pow5_mul {w : Nat} (hw : 0 < w) (h7 : ¬7 ∣ w)
    {l : List Nat} {fL : Nat} (hS : stageDecompose w = some (l, fL)) :
    ∀ c, stageDecompose (5 ^ c * w) = some (List.replicate c 5 ++ l, fL) := by
  intro c
  induction c with
  | zero => simpa using hS
  | succ c ih =>
    have hp1 : (5 : Nat) ≤ 5 ^ (c + 1) := Nat.le_self_pow (by omega) 5
    have hle : 5 ^ (c + 1) ≤ 5 ^ (c + 1) * w := Nat.le_mul_of_pos_right _ hw
    have hgt : 1 < 5 ^ (c + 1) * w := by omega
    have hd5 : 5 ∣ 5 ^ (c + 1) * w := ⟨5 ^ c * w, by ring⟩
    have hn7 : ¬7 ∣ 5 ^ (c + 1) * w := not_dvd_mul_pow (by decide) h7 (c + 1)
    have hdiv : 5 ^ (c + 1) * w / 5 = 5 ^ c * w := by
      rw [show 5 ^ (c + 1) * w = 5 * (5 ^ c * w) by ring]
      exact Nat.mul_div_cancel_left _ (by omega)
    rw [stageDecompose_unfold, if_pos hgt, pickRadix_eq_five hn7 hd5]
    show (stageDecompose (5 ^ (c + 1) * w / 5)).map (fun p => (5 :: p.1, p.2)) = _
    rw [hdiv, ih]
    simp [List.replicate_succ]

/-- Prepending `d` radix-7 stages. -/
theorem stageDecompose_pow7_mul {w : Nat} (hw : 0 < w)
    {l : List Nat} {fL : Nat} (hS : stageDecompose w = some (l, fL)) :
    ∀ d, stageDecompose (7 ^ d * w) = some (List.replicate d 7 ++ l, fL) := by
  intro d
  induction d with
  | zero => simpa using hS
  | succ d ih =>
    have hp1 : (7 : Nat) ≤ 7 ^ (d + 1) := Nat.le_self_pow (by omega) 7
    have hle : 7 ^ (d + 1) ≤ 7 ^ (d + 1) * w := Nat.le_mul_of_pos_right _ hw
    have hgt : 1 < 7 ^ (d + 1) * w := by omega
    have hd7 : 7 ∣ 7 ^ (d + 1) * w := ⟨7 ^ d * w, by ring⟩
    have hdiv : 7 ^ (d + 1) * w / 7 = 7 ^ d * w := by
      rw [show 7 ^ (d + 1) * w = 7 * (7 ^ d * w) by ring]
      exact Nat.mul_div_cancel_left _ (by omega)
    rw [stageDecompose_unfold, if_pos hgt, pickRadix_eq_seven hd7]
    show (stageDecompose (7 ^ (d + 1) * w / 7)).map (fun p => (7 :: p.1, p.2)) = _
    rw [hdiv, ih]
    simp [List.replicate_succ]

/-- Closed form of the stage decomposition on a smooth length
`2^a * 3^b * 5^c * 7^d`: all 7s, then all 5s, then the 4s from the even part
of the 2-exponent, then all 3s, then one final 2 when `a` is odd; the loop
exits with remaining length 1. -/
theorem stageDecompose_closed (a b c d : Nat) :
    stageDecompose (2 ^ a * 3 ^ b * 5 ^ c * 7 ^ d) =
      some (List.replicate d 7 ++ List.replicate c 5 ++ List.replicate (a / 2) 4 ++
        List.replicate b 3 ++ List.replicate (a % 2) 2, 1) := by
  have hw4pos : 0 < 2 ^ (a % 2) := Nat.pos_pow_of_pos _ (by omega)
  have h7w4 : ¬7 ∣ 2 ^ (a % 2) := not_dvd_pow_of_coprime (by decide) (by omega) _
  have h5w4 : ¬5 ∣ 2 ^ (a % 2) := not_dvd_pow_of_coprime (by decide) (by omega) _
  have h4w4 : ¬4 ∣ 2 ^ (a % 2) := by
    rcases (by omega : a % 2 = 0 ∨ a % 2 = 1) with h | h <;> rw [h] <;> decide
  have hw4 : stageDecompose (2 ^ (a % 2)) = some (List.replicate (a % 2) 2, 1) :=
    stageDecompose_two_pow (by omega)
  have hw3 := stageDecompose_pow3_mul hw4pos h7w4 h5w4 h4w4 hw4 b
  have hw3pos : 0 < 3 ^ b * 2 ^ (a % 2) :=
    Nat.mul_pos (Nat.pos_pow_of_pos _ (by omega)) hw4pos
  have h7w3 : ¬7 ∣ 3 ^ b * 2 ^ (a % 2) := not_dvd_mul_pow (by decide) h7w4 b
  have h5w3 : ¬5 ∣ 3 ^ b * 2 ^ (a % 2) := not_dvd_mul_pow (by decide) h5w4 b
  have hw2 := stageDecompose_pow4_mul hw3pos h7w3 h5w3 hw3 (a / 2)
  have hw2pos : 0 < 4 ^ (a / 2) * (3 ^ b * 2 ^ (a % 2)) :=
    Nat.mul_pos (Nat.pos_pow_of_pos _ (by omega)) hw3pos
  have h7w2 : ¬7 ∣ 4 ^ (a / 2) * (3 ^ b * 2 ^ (a % 2)) :=
    not_dvd_mul_pow (by decide) h7w3 (a / 2)
  have hw1 := stageDecompose_pow5_mul hw2pos h7w2 hw2 c
  have hw1pos : 0 < 5 ^ c * (4 ^ (a / 2) * (3 ^ b * 2 ^ (a % 2))) :=
    Nat.mul_pos (Nat.pos_pow_of_pos _ (by omega)) hw2pos
  have hZ := stageDecompose_pow7_mul hw1pos hw1 d
  have harr : 2 ^ a * 3 ^ b * 5 ^ c * 7 ^ d =
      7 ^ d * (5 ^ c * (4 ^ (a / 2) * (3 ^ b * 2 ^ (a % 2)))) := by
    have h2 : 2 ^ a = 4 ^ (a / 2) * 2 ^ (a % 2) := by
      rw [show (4 : Nat) = 2 ^ 2 by norm_num, ← pow_mul, ← pow_add]
      congr 1
      omega
    rw [h2]; ring
  rw [harr, hZ]
  simp [List.append_assoc]

/-! ## Claim C1: the stage decomposition covers every smooth length -/

/-- Claim C1: for every axis length whose complete prime factorization uses
only primes in {2,3,5,7}, the stage-decomposition loop of `createKernel`
terminates with remaining length `L = 1`, and the product of the selected
radices (each the first of 7, 5, 4, 3, 2 dividing the current `L`) equals the
length. -/
theorem stage_decomposition_complete (Z : Nat) (h : Smooth7 Z) :
    ∃ l, stageDecompose Z = some (l, 1) ∧ l.prod = Z := by
  obtain ⟨a, b, c, d, rfl⟩ := h
  refine ⟨_, stageDecompose_closed a b c d, ?_⟩
  simp only [List.prod_append, List.prod_replicate]
  have h2 : (2 : Nat) ^ a = 4 ^ (a / 2) * 2 ^ (a % 2) := by
    rw [show (4 : Nat) = 2 ^ 2 by norm_num, ← pow_mul, ← pow_add]
    congr 1
    omega
  rw [h2]; ring

/-- Witness for C1: length 28 = 2²·7 decomposes fully. -/
theorem stage_decomposition_complete_witness :
    ∃ l, stageDecompose 28 = some (l, 1) ∧ l.prod = 28 :=
  stage_decomposition_complete 28 ⟨2, 0, 0, 1, by norm_num⟩

/-! ## Claim C8: the illegal-size throw fires exactly off the smooth set -/

/-- A positive non-smooth length drives the stage loop into the
illegal-size branch. -/
theorem stageDecompose_none_of_not_smooth :
    ∀ Z, 0 < Z → ¬Smooth7 Z → stageDecompose Z = none := by
  intro Z
  induction Z using Nat.strong_induction_on with
  | _ Z ih =>
    intro hZ hns
    have hZ1 : Z ≠ 1 := fun h => hns (h ▸ ⟨0, 0, 0, 0, by norm_num⟩)
    have hgt : 1 < Z := by omega
    rw [stageDecompose_unfold, if_pos hgt]
    cases hp : pickRadix Z with
    | none => rfl
    | some r =>
      obtain ⟨hr2, hrd⟩ := pickRadix_spec hp
      have hq : Z / r < Z := Nat.div_lt_self (by omega) (by omega)
      have hqpos : 0 < Z / r := Nat.div_pos (Nat.le_of_dvd (by omega) hrd) (by omega)
      have hqns : ¬Smooth7 (Z / r) := by
        intro hs
        have hZe : Z = r * (Z / r) := (Nat.mul_div_cancel' hrd).symm
        exact hns (hZe ▸ (smooth_of_pickRadix hp).mul hs)
      show (stageDecompose (Z / r)).map (fun p => (r :: p.1, p.2)) = none
      rw [ih (Z / r) hq hqpos hqns]
      rfl

/-- Claim C8: for positive lengths, kernel synthesis throws the
"Illegal size for FFT" exception (modelled as `none`) exactly when the length
is not fully factorable over {2,3,5,7} — i.e. exactly when the loop reaches a
remaining length greater than 1 divisible by none of 7, 5, 4, 3, 2; for
smooth lengths the error branch is never reached. -/
theorem stage_illegal_size_iff (Z : Nat) (hZ : 0 < Z) :
    stageDecompose Z = none ↔ ¬Smooth7 Z := by
  constructor
  · intro hnone hs
    obtain ⟨a, b, c, d, rfl⟩ := hs
    rw [stageDecompose_closed] at hnone
    exact absurd hnone (by simp)
  · exact stageDecompose_none_of_not_smooth Z hZ

/-- Witness for C8: length 11 (a prime above 7) throws, hence 11 is not
smooth; conversely the theorem plus `decide` confirm the throw. -/
theorem stage_illegal_size_iff_witness : (0 : Nat) < 11 ∧ ¬Smooth7 11 :=
  ⟨by decide, (stage_illegal_size_iff 11 (by decide)).mp (by decide)⟩

/-! ## Closed form of `getSmallestRadix` on smooth numbers -/

/-- Evaluation of one radix pass on `r ^ k * w` with `r` not dividing `w`:
the pass strips all `k` copies of `r`, records `r` as `minRadix` when `k > 0`,
and leaves `w`. -/
theorem radixPassAux_pow (r : Nat) (hr : 2 ≤ r) :
    ∀ k fuel m w, k < fuel → ¬r ∣ w →
      radixPassAux fuel r m (r ^ k * w) = (if k = 0 then m else r, w) := by
  intro k
  induction k with
  | zero =>
    intro fuel m w hf hw
    match fuel, hf with
    | fuel + 1, _ =>
      simp only [radixPassAux, pow_zero, one_mul]
      rw [if_neg (mod_ne_zero_of_not_dvd hw)]
      simp
  | succ k ih =>
    intro fuel m w hf hw
    match fuel, hf with
    | fuel + 1, hf =>
      have hdvd : (r ^ (k + 1) * w) % r = 0 := mod_eq_zero_of_dvd ⟨r ^ k * w, by ring⟩
      have hdiv : r ^ (k + 1) * w / r = r ^ k * w := by
        rw [show r ^ (k + 1) * w = r * (r ^ k * w) by ring]
        exact Nat.mul_div_cancel_left _ (by omega)
      simp only [radixPassAux]
      rw [if_pos hdvd, hdiv, ih fuel r w (by omega) hw]
      simp

/-- `radixPassAux_pow` with the reduced length given by an equation, so it
can rewrite call sites directly. -/
theorem radixPassAux_eval (r k w fuel m u : Nat) (hr : 2 ≤ r) (hu : u = r ^ k * w)
    (hf : k < fuel) (hw : ¬r ∣ w) :
    radixPassAux fuel r m u = (if k = 0 then m else r, w) := by
  subst hu
  exact radixPassAux_pow r hr k fuel m w hf hw

/-- Closed form of `getSmallestRadix` on a smooth number: the result is the
last pass that fires — 2 when the 2-exponent is odd, else 3, 4 (even
2-exponent at least 2), 5, 7 in that order of preference, else 1. -/
theorem getSmallestRadix_closed (a b c d : Nat) :
    getSmallestRadix (2 ^ a * 3 ^ b * 5 ^ c * 7 ^ d) =
      (if a % 2 = 1 then 2 else if 0 < b then 3 else if 0 < a then 4
       else if 0 < c then 5 else if 0 < d then 7 else 1) := by
  have hposS : 0 < 2 ^ a * 3 ^ b * 5 ^ c * 7 ^ d := by positivity
  have hb7 : (7 : Nat) ^ d ≤ 2 ^ a * 3 ^ b * 5 ^ c * 7 ^ d :=
    Nat.le_mul_of_pos_left _ (by positivity)
  have hd7 : d < 2 ^ a * 3 ^ b * 5 ^ c * 7 ^ d :=
    lt_of_lt_of_le (Nat.lt_pow_self (by omega) d) hb7
  have hb5 : (5 : Nat) ^ c ≤ 2 ^ a * 3 ^ b * 5 ^ c * 7 ^ d := by
    calc (5 : Nat) ^ c ≤ 2 ^ a * 3 ^ b * 5 ^ c := Nat.le_mul_of_pos_left _ (by positivity)
    _ ≤ 2 ^ a * 3 ^ b * 5 ^ c * 7 ^ d := Nat.le_mul_of_pos_right _ (by positivity)
  have hc5 : c < 2 ^ a * 3 ^ b * 5 ^ c * 7 ^ d :=
    lt_of_lt_of_le (Nat.lt_pow_self (by omega) c) hb5
  have hb2 : (2 : Nat) ^ a ≤ 2 ^ a * 3 ^ b * 5 ^ c * 7 ^ d := by
    calc (2 : Nat) ^ a ≤ 2 ^ a * 3 ^ b := Nat.le_mul_of_pos_right _ (by positivity)
    _ ≤ 2 ^ a * 3 ^ b * 5 ^ c := Nat.le_mul_of_pos_right _ (by positivity)
    _ ≤ 2 ^ a * 3 ^ b * 5 ^ c * 7 ^ d := Nat.le_mul_of_pos_right _ (by positivity)
  have ha4 : a / 2 < 2 ^ a * 3 ^ b * 5 ^ c * 7 ^ d := by
    have := Nat.lt_two_pow a
    omega
  have hb3g : (3 : Nat) ^ b ≤ 2 ^ a * 3 ^ b * 5 ^ c * 7 ^ d := by
    calc (3 : Nat) ^ b ≤ 2 ^ a * 3 ^ b := Nat.le_mul_of_pos_left _ (by positivity)
    _ ≤ 2 ^ a * 3 ^ b * 5 ^ c := Nat.le_mul_of_pos_right _ (by positivity)
    _ ≤ 2 ^ a * 3 ^ b * 5 ^ c * 7 ^ d := Nat.le_mul_of_pos_right _ (by positivity)
  have hb3 : b < 2 ^ a * 3 ^ b * 5 ^ c * 7 ^ d :=
    lt_of_lt_of_le (Nat.lt_pow_self (by omega) b) hb3g
  have he2 : a % 2 < 2 ^ a * 3 ^ b * 5 ^ c * 7 ^ d := by
    rcases (by omega : a % 2 = 0 ∨ a % 2 = 1) with h | h
    · omega
    · have h1 : (2 : Nat) ^ 1 ≤ 2 ^ a := Nat.pow_le_pow_right (by omega) (by omega)
      have h2 : (2 : Nat) ^ 1 = 2 := by norm_num
      omega
  have h7w : ¬7 ∣ 2 ^ a * 3 ^ b * 5 ^ c :=
    not_dvd_of_coprime (by omega)
      ((((by decide : Nat.Coprime 7 2).pow_right a).mul_right
        ((by decide : Nat.Coprime 7 3).pow_right b)).mul_right
        ((by decide : Nat.Coprime 7 5).pow_right c))
  have h5w : ¬5 ∣ 2 ^ a * 3 ^ b :=
    not_dvd_of_coprime (by omega)
      (((by decide : Nat.Coprime 5 2).pow_right a).mul_right
        ((by decide : Nat.Coprime 5 3).pow_right b))
  have h4w : ¬4 ∣ 2 ^ (a % 2) * 3 ^ b := by
    intro hdvd
    have h42 : (4 : Nat) ∣ 2 ^ (a % 2) :=
      ((by decide : Nat.Coprime 4 3).pow_right b).dvd_of_dvd_mul_right hdvd
    rcases (by omega : a % 2 = 0 ∨ a % 2 = 1) with h | h <;> rw [h] at h42 <;>
      exact absurd h42 (by decide)
  have h3w : ¬3 ∣ 2 ^ (a % 2) := not_dvd_pow_of_coprime (by decide) (by omega) _
  have harr4 : (2 : Nat) ^ a * 3 ^ b = 4 ^ (a / 2) * (2 ^ (a % 2) * 3 ^ b) := by
    have h2 : (2 : Nat) ^ a = 4 ^ (a / 2) * 2 ^ (a % 2) := by
      rw [show (4 : Nat) = 2 ^ 2 by norm_num, ← pow_mul, ← pow_add]
      congr 1
      omega
    rw [h2]; ring
  have e7 := radixPassAux_eval 7 d (2 ^ a * 3 ^ b * 5 ^ c)
    (2 ^ a * 3 ^ b * 5 ^ c * 7 ^ d) 1 (2 ^ a * 3 ^ b * 5 ^ c * 7 ^ d)
    (by omega) (by ring) hd7 h7w
  have e5 := radixPassAux_eval 5 c (2 ^ a * 3 ^ b)
    (2 ^ a * 3 ^ b * 5 ^ c * 7 ^ d) (if d = 0 then 1 else 7) (2 ^ a * 3 ^ b * 5 ^ c)
    (by omega) (by ring) hc5 h5w
  have e4 := radixPassAux_eval 4 (a / 2) (2 ^ (a % 2) * 3 ^ b)
    (2 ^ a * 3 ^ b * 5 ^ c * 7 ^ d) (if c = 0 then if d = 0 then 1 else 7 else 5)
    (2 ^ a * 3 ^ b) (by omega) harr4 ha4 h4w
  have e3 := radixPassAux_eval 3 b (2 ^ (a % 2))
    (2 ^ a * 3 ^ b * 5 ^ c * 7 ^ d)
    (if a / 2 = 0 then if c = 0 then if d = 0 then 1 else 7 else 5 else 4)
    (2 ^ (a % 2) * 3 ^ b) (by omega) (by ring) hb3 h3w
  have e2 := radixPassAux_eval 2 (a % 2) 1
    (2 ^ a * 3 ^ b * 5 ^ c * 7 ^ d)
    (if b = 0 then if a / 2 = 0 then if c = 0 then if d = 0 then 1 else 7 else 5 else 4
     else 3)
    (2 ^ (a % 2)) (by omega) (by rw [mul_one]) he2 (by decide)
  simp only [getSmallestRadix, e7, e5, e4, e3, e2]
  split_ifs <;> omega

/-! ## Claim C10: `getSmallestRadix` agrees with the stage decomposition -/

/-- Claim C10: for every smooth length at least 2, `getSmallestRadix` returns
exactly the minimum of the radices the per-stage priority decomposition
selects — the two loop structures agree. -/
theorem getSmallestRadix_min_of_stages (Z : Nat) (hZ : 2 ≤ Z) (hs : Smooth7 Z) :
    ∃ l fL, stageDecompose Z = some (l, fL) ∧
      getSmallestRadix Z ∈ l ∧ ∀ r ∈ l, getSmallestRadix Z ≤ r := by
  obtain ⟨a, b, c, d, rfl⟩ := hs
  have hne : ¬(a = 0 ∧ b = 0 ∧ c = 0 ∧ d = 0) := by
    rintro ⟨rfl, rfl, rfl, rfl⟩
    norm_num at hZ
  refine ⟨_, _, stageDecompose_closed a b c d, ?_, ?_⟩
  · rw [getSmallestRadix_closed]
    simp only [List.mem_append, List.mem_replicate]
    split_ifs <;> omega
  · intro r hr
    rw [getSmallestRadix_closed]
    simp only [List.mem_append, List.mem_replicate] at hr
    split_ifs <;> omega

/-- Witness for C10: length 28, whose stages are [7, 4] and whose smallest
radix is 4. -/
theorem getSmallestRadix_min_of_stages_witness :
    ∃ l fL, stageDecompose 28 = some (l, fL) ∧
      getSmallestRadix 28 ∈ l ∧ ∀ r ∈ l, getSmallestRadix 28 ≤ r :=
  getSmallestRadix_min_of_stages 28 (by omega) ⟨2, 0, 0, 1, by norm_num⟩

/-! ## Claim C2: `findLegalDimension` -/

/-- Trial division only removes copies of the factor: the original value is
the stripped value times a power of the factor. -/
theorem stripFactorAux_decomp : ∀ fuel f u, ∃ k, u = stripFactorAux fuel f u * f ^ k := by
  intro fuel
  induction fuel with
  | zero => intro f u; exact ⟨0, by simp [stripFactorAux]⟩
  | succ fuel ih =>
    intro f u
    simp only [stripFactorAux]
    by_cases hcond : 1 < u ∧ u % f = 0
    · rw [if_pos hcond]
      obtain ⟨k, hk⟩ := ih f (u / f)
      have hdvd : f ∣ u := Nat.dvd_of_mod_eq_zero hcond.2
      refine ⟨k + 1, ?_⟩
      calc u = u / f * f := (Nat.div_mul_cancel hdvd).symm
      _ = stripFactorAux fuel f (u / f) * f ^ k * f := by rw [← hk]
      _ = stripFactorAux fuel f (u / f) * f ^ (k + 1) := by ring
    · rw [if_neg hcond]; exact ⟨0, by simp⟩

theorem stripFactor_decomp (f u : Nat) : ∃ k, u = stripFactor f u * f ^ k :=
  stripFactorAux_decomp u f u

/-- Full evaluation of one trial-division loop on `f ^ k * w` with `f` not
dividing `w`: all `k` copies of `f` are removed. -/
theorem stripFactorAux_pow (f : Nat) (hf : 2 ≤ f) :
    ∀ k fuel w, k < fuel → ¬f ∣ w → stripFactorAux fuel f (f ^ k * w) = w := by
  intro k
  induction k with
  | zero =>
    intro fuel w hfu hw
    match fuel, hfu with
    | fuel + 1, _ =>
      simp only [stripFactorAux, pow_zero, one_mul]
      rw [if_neg (fun hcon => mod_ne_zero_of_not_dvd hw hcon.2)]
  | succ k ih =>
    intro fuel w hfu hw
    match fuel, hfu with
    | fuel + 1, hfu =>
      have hw0 : w ≠ 0 := fun h => hw (h ▸ dvd_zero f)
      have hp1 : f ≤ f ^ (k + 1) := Nat.le_self_pow (by omega) f
      have hle : f ^ (k + 1) ≤ f ^ (k + 1) * w := Nat.le_mul_of_pos_right _ (by omega)
      have hgt : 1 < f ^ (k + 1) * w := by omega
      have hmod : (f ^ (k + 1) * w) % f = 0 := mod_eq_zero_of_dvd ⟨f ^ k * w, by ring⟩
      have hdiv : f ^ (k + 1) * w / f = f ^ k * w := by
        rw [show f ^ (k + 1) * w = f * (f ^ k * w) by ring]
        exact Nat.mul_div_cancel_left _ (by omega)
      simp only [stripFactorAux]
      rw [if_pos ⟨hgt, hmod⟩, hdiv]
      exact ih fuel w (by omega) hw

theorem stripFactor_pow (f : Nat) (hf : 2 ≤ f) (k w : Nat) (hw : ¬f ∣ w) :
    stripFactor f (f ^ k * w) = w := by
  have hw0 : w ≠ 0 := fun h => hw (h ▸ dvd_zero f)
  have h1 : k < 2 ^ k := Nat.lt_two_pow k
  have h2 : (2 : Nat) ^ k ≤ f ^ k := Nat.pow_le_pow_left (by omega) k
  have h3 : f ^ k ≤ f ^ k * w := Nat.le_mul_of_pos_right _ (by omega)
  exact stripFactorAux_pow f hf k (f ^ k * w) w (by omega) hw

/-- A factor that does not divide the value leaves it unchanged. -/
theorem stripFactor_no (f : Nat) (hf : 2 ≤ f) {u : Nat} (hu : ¬f ∣ u) :
    stripFactor f u = u := by
  have := stripFactor_pow f hf 0 u hu
  simpa using this

/-- The acceptance test of `findLegalDimension` holds exactly on the smooth
numbers. -/
theorem legalCheck_iff (n : Nat) : legalCheck n = true ↔ Smooth7 n := by
  constructor
  · intro h
    have hres : stripFactor 7 (stripFactor 6 (stripFactor 5 (stripFactor 4
        (stripFactor 3 (stripFactor 2 n))))) = 1 := by
      simpa [legalCheck, factorResidual] using h
    obtain ⟨k2, h2⟩ := stripFactor_decomp 2 n
    obtain ⟨k3, h3⟩ := stripFactor_decomp 3 (stripFactor 2 n)
    obtain ⟨k4, h4⟩ := stripFactor_decomp 4 (stripFactor 3 (stripFactor 2 n))
    obtain ⟨k5, h5⟩ := stripFactor_decomp 5 (stripFactor 4 (stripFactor 3 (stripFactor 2 n)))
    obtain ⟨k6, h6⟩ := stripFactor_decomp 6 (stripFactor 5 (stripFactor 4 (stripFactor 3
      (stripFactor 2 n))))
    obtain ⟨k7, h7⟩ := stripFactor_decomp 7 (stripFactor 6 (stripFactor 5 (stripFactor 4
      (stripFactor 3 (stripFactor 2 n)))))
    refine ⟨k2 + 2 * k4 + k6, k3 + k6, k5, k7, ?_⟩
    rw [h2, h3, h4, h5, h6, h7, hres,
      show (6 : Nat) ^ k6 = 2 ^ k6 * 3 ^ k6 by
        rw [show (6 : Nat) = 2 * 3 by norm_num, mul_pow],
      show (4 : Nat) ^ k4 = 2 ^ (2 * k4) by
        rw [show (4 : Nat) = 2 ^ 2 by norm_num, ← pow_mul]]
    ring
  · rintro ⟨a, b, c, d, rfl⟩
    have hnd2 : ¬2 ∣ 3 ^ b * (5 ^ c * 7 ^ d) :=
      not_dvd_of_coprime (by omega)
        (((by decide : Nat.Coprime 2 3).pow_right b).mul_right
          (((by decide : Nat.Coprime 2 5).pow_right c).mul_right
            ((by decide : Nat.Coprime 2 7).pow_right d)))
    have hnd3 : ¬3 ∣ 5 ^ c * 7 ^ d :=
      not_dvd_of_coprime (by omega)
        (((by decide : Nat.Coprime 3 5).pow_right c).mul_right
          ((by decide : Nat.Coprime 3 7).pow_right d))
    have hnd4 : ¬4 ∣ 5 ^ c * 7 ^ d :=
      not_dvd_of_coprime (by omega)
        (((by decide : Nat.Coprime 4 5).pow_right c).mul_right
          ((by decide : Nat.Coprime 4 7).pow_right d))
    have hnd5 : ¬5 ∣ 7 ^ d := not_dvd_pow_of_coprime (by decide) (by omega) d
    have hnd6 : ¬6 ∣ 7 ^ d := not_dvd_pow_of_coprime (by decide) (by omega) d
    have hs2 : stripFactor 2 (2 ^ a * 3 ^ b * 5 ^ c * 7 ^ d) = 3 ^ b * (5 ^ c * 7 ^ d) := by
      rw [show (2 : Nat) ^ a * 3 ^ b * 5 ^ c * 7 ^ d =
        2 ^ a * (3 ^ b * (5 ^ c * 7 ^ d)) by ring]
      exact stripFactor_pow 2 (by omega) a _ hnd2
    have hs3 : stripFactor 3 (3 ^ b * (5 ^ c * 7 ^ d)) = 5 ^ c * 7 ^ d :=
      stripFactor_pow 3 (by omega) b _ hnd3
    have hs4 : stripFactor 4 (5 ^ c * 7 ^ d) = 5 ^ c * 7 ^ d :=
      stripFactor_no 4 (by omega) hnd4
    have hs5 : stripFactor 5 (5 ^ c * 7 ^ d) = 7 ^ d :=
      stripFactor_pow 5 (by omega) c _ hnd5
    have hs6 : stripFactor 6 (7 ^ d) = 7 ^ d := stripFactor_no 6 (by omega) hnd6
    have hs7 : stripFactor 7 (7 ^ d) = 1 := by
      rw [show (7 : Nat) ^ d = 7 ^ d * 1 from (mul_one _).symm]
      exact stripFactor_pow 7 (by omega) d 1 (by decide)
    simp only [legalCheck, factorResidual, List.foldl, hs2, hs3, hs4, hs5, hs6, hs7]
    rfl

/-- The bounded search returns the least accepted candidate at or above the
start, provided an accepted candidate lies within the fuel. -/
theorem searchFromAux_spec :
    ∀ fuel m j, j ≤ fuel → legalCheck (m + j) = true →
      m ≤ searchFromAux fuel m ∧ legalCheck (searchFromAux fuel m) = true ∧
      ∀ k, m ≤ k → legalCheck k = true → searchFromAux fuel m ≤ k := by
  intro fuel
  induction fuel with
  | zero =>
    intro m j hj hl
    have hj0 : j = 0 := by omega
    subst hj0
    simp only [searchFromAux]
    exact ⟨le_refl m, by simpa using hl, fun k hk _ => hk⟩
  | succ fuel ih =>
    intro m j hj hl
    simp only [searchFromAux]
    by_cases hm : legalCheck m = true
    · rw [if_pos hm]
      exact ⟨le_refl m, hm, fun k hk _ => hk⟩
    · rw [if_neg hm]
      have hj0 : j ≠ 0 := by
        intro h
        subst h
        exact hm (by simpa using hl)
      have hrec := ih (m + 1) (j - 1) (by omega)
        (by rw [show m + 1 + (j - 1) = m + j by omega]; exact hl)
      refine ⟨by omega, hrec.2.1, fun k hk hlk => ?_⟩
      rcases Nat.eq_or_lt_of_le hk with rfl | hk2
      · exact absurd hlk hm
      · exact hrec.2.2 k (by omega) hlk

/-- Claim C2: `findLegalDimension` returns 1 for every `minimum < 1`; for
`minimum ≥ 1` it returns the smallest integer at least `minimum` whose
complete prime factorization uses only primes in {2,3,5,7}; hence the result
is at least `minimum` for every positive `minimum`. -/
theorem findLegalDimension_spec (minimum : Int) :
    (minimum < 1 → findLegalDimension minimum = 1) ∧
    (1 ≤ minimum →
      ∃ n : Nat, findLegalDimension minimum = (n : Int) ∧ minimum ≤ (n : Int) ∧ Smooth7 n ∧
        ∀ k : Nat, minimum ≤ (k : Int) → Smooth7 k → n ≤ k) ∧
    (1 ≤ minimum → minimum ≤ findLegalDimension minimum) := by
  have main : 1 ≤ minimum →
      ∃ n : Nat, findLegalDimension minimum = (n : Int) ∧ minimum ≤ (n : Int) ∧ Smooth7 n ∧
        ∀ k : Nat, minimum ≤ (k : Int) → Smooth7 k → n ≤ k := by
    intro h1
    have hm0 : (0 : Int) ≤ minimum := by omega
    set m := minimum.toNat with hm
    have hmm : (m : Int) = minimum := Int.toNat_of_nonneg hm0
    have hm1 : 1 ≤ m := by omega
    have hle : m ≤ 2 ^ m := Nat.le_of_lt (Nat.lt_two_pow m)
    have hlegal : legalCheck (m + (2 ^ m - m)) = true := by
      rw [show m + (2 ^ m - m) = 2 ^ m by omega]
      exact (legalCheck_iff _).mpr ⟨m, 0, 0, 0, by ring⟩
    have hspec := searchFromAux_spec (2 ^ m) m (2 ^ m - m) (by omega) hlegal
    refine ⟨searchFromAux (2 ^ m) m, ?_, ?_, ?_, ?_⟩
    · unfold findLegalDimension
      rw [if_neg (show ¬minimum < 1 by omega), ← hm]
    · have := hspec.1; omega
    · exact (legalCheck_iff _).mp hspec.2.1
    · intro k hk hsk
      exact hspec.2.2 k (by omega) ((legalCheck_iff k).mpr hsk)
  refine ⟨?_, main, ?_⟩
  · intro h
    unfold findLegalDimension
    rw [if_pos h]
  · intro h1
    obtain ⟨n, he, hge, _, _⟩ := main h1
    rw [he]
    exact hge

/-- Witness for C2: a negative minimum returns 1, and the result for 11 is at
least 11 (it is in fact 12). -/
theorem findLegalDimension_spec_witness :
    findLegalDimension (-3) = 1 ∧ (11 : Int) ≤ findLegalDimension 11 :=
  ⟨(findLegalDimension_spec (-3)).1 (by norm_num),
   (findLegalDimension_spec 11).2.2 (by norm_num)⟩
